import Mathlib

/-!
Verification development for the result-cache and selection-orchestration
core of the StockTradebyZ repository (src/result_storage.py and
src/api_server.py).

The Python code is shallowly embedded as follows.

Filesystem model: the result directory is the root of a small file system
(structure Store) holding a list of existing directories and a list of
files, each file carrying one well-typed StockSelectionResult record (a
stored JSON file that parses and validates; a file that fails to parse is
simply absent from the model, which matches load_result treating it as
None). Paths are lists of segments (lists of characters); joining a Python
string onto a pathlib.Path splits it on the separator and drops empty and
"." segments, which splitSeg reproduces.

result_storage.ResultStorage methods get_result_path, save_result,
load_result, result_exists, load_all_results and list_available_dates are
embedded as state-passing functions over Store. datetime.strptime with
format string Y-m-d is embedded by strptime_date_ok (four-digit year,
one-or-two-digit month and day, calendar validity), restricted to ASCII
digits.

api_server.run_selection's per-config loop is embedded by processCfg and
run_selection over an abstract configuration record Cfg: the outcome of
instantiate_selector and of selector.select, and the selector's
last_scores attribute, are inputs of the model, since the strategy classes
are external to the core. Python float score values are modelled as
rationals. Trade-date resolution from the loaded data is embedded by
resolve_trade_date over dates modelled as naturals.
-/

/-- Seg is one path segment: a file or directory name, as a character list. -/
abbrev Seg := List Char

/-- PathT is a path relative to the result directory: a list of segments. -/
abbrev PathT := List Seg

/-- splitRaw sep l acc splits the character list l at every occurrence of
the separator character, accumulating the current segment in acc (reversed). -/
def splitRaw (sep : Char) : List Char → List Char → List (List Char)
  | [], acc => [acc.reverse]
  | c :: cs, acc =>
      if c = sep then acc.reverse :: splitRaw sep cs []
      else splitRaw sep cs (c :: acc)

/-- listSeg l is the list of path segments that pathlib keeps when the raw
string with characters l is joined onto a path: split on the separator,
dropping empty segments and "." segments. -/
def listSeg (l : List Char) : PathT :=
  (splitRaw '/' l []).filter (fun s => decide (s ≠ []) && decide (s ≠ ['.']))

/-- splitSeg s is listSeg on the characters of the string s. -/
def splitSeg (s : String) : PathT :=
  listSeg s.data

/-- jsonSfx is the character list of the ".json" file-name extension. -/
def jsonSfx : List Char := ['.', 'j', 's', 'o', 'n']

/-- pathFor d s is the location of the record for trade date d and
selector class name s, relative to the result directory: the pure part of
ResultStorage.get_result_path (result_dir / trade_date / selector.json). -/
def pathFor (d s : String) : PathT :=
  splitSeg d ++ listSeg (s.data ++ jsonSfx)

/-- StockSelectionResult embeds the pydantic model of the same name: one
strategy's stored selection result. Score values (Python floats) are
modelled as rationals, and the (unbounded) Python int count as an integer. -/
structure StockSelectionResult where
  selector_name : String
  «alias» : String
  trade_date : String
  selected_stocks : List String
  scores : Option (List (String × Rat)) := none
  count : Int
deriving DecidableEq, Repr

/-- Store models the file system under the result directory: the set of
existing directories (as a list of paths) and the stored record files. -/
structure Store where
  dirs : List PathT
  files : List (PathT × StockSelectionResult)
deriving DecidableEq, Repr

/-- alookup is association-list lookup, returning the first value bound to
the key. -/
def alookup {α β : Type} [DecidableEq α] : List (α × β) → α → Option β
  | [], _ => none
  | q :: qs, k => if q.1 = k then some q.2 else alookup qs k

/-- prefixesNE segs is the list of nonempty prefixes of the path segs, in
increasing length order: the chain of directories mkdir(parents=True)
ensures exist. -/
def prefixesNE (segs : PathT) : List PathT :=
  (List.range segs.length).map (fun i => segs.take (i + 1))

/-- addDir ds p appends the directory p to ds unless already present. -/
def addDir (ds : List PathT) (p : PathT) : List PathT :=
  if p ∈ ds then ds else ds ++ [p]

/-- mkdirP st segs models date_dir.mkdir(parents=True, exist_ok=True):
every nonempty prefix of segs becomes an existing directory. -/
def mkdirP (st : Store) (segs : PathT) : Store :=
  { st with dirs := (prefixesNE segs).foldl addDir st.dirs }

/-- get_result_path embeds ResultStorage.get_result_path: it creates the
date partition directory as a side effect and returns the record location. -/
def get_result_path (st : Store) (trade_date selector_name : String) : Store × PathT :=
  (mkdirP st (splitSeg trade_date), pathFor trade_date selector_name)

/-- readRecord is the pure read of the record stored at the resolved
location, if any: the content part of ResultStorage.load_result. -/
def readRecord (st : Store) (trade_date selector_name : String) : Option StockSelectionResult :=
  alookup st.files (pathFor trade_date selector_name)

/-- setFile fs p r stores record r at location p, overwriting any previous
content at p (last write wins). -/
def setFile (fs : List (PathT × StockSelectionResult)) (p : PathT) (r : StockSelectionResult) :
    List (PathT × StockSelectionResult) :=
  (p, r) :: fs.filter (fun q => decide (q.1 ≠ p))

/-- dirExistsB st p tests whether the directory at relative path p exists;
the result directory root itself (the empty path) always exists. -/
def dirExistsB (st : Store) (p : PathT) : Bool :=
  decide (p = []) || decide (p ∈ st.dirs)

/-- save_result embeds ResultStorage.save_result: resolve the location
(creating the date directory) and serialize the record there. The write
succeeds only when the location's parent directory exists and no directory
occupies the location itself; otherwise open raises, the exception is
caught, False is reported and nothing is written (a nested selector name
leaves only the date directory created). -/
def save_result (st : Store) (r : StockSelectionResult) : Store × Bool :=
  let st1 := (get_result_path st r.trade_date r.selector_name).1
  let p := pathFor r.trade_date r.selector_name
  if dirExistsB st1 p.dropLast = true ∧ p ∉ st1.dirs then
    ({ st1 with files := setFile st1.files p r }, true)
  else
    (st1, false)

/-- load_result embeds ResultStorage.load_result: resolve the location
(creating the date directory) and read the record there, absent giving
none. -/
def load_result (st : Store) (trade_date selector_name : String) :
    Store × Option StockSelectionResult :=
  ((get_result_path st trade_date selector_name).1, readRecord st trade_date selector_name)

/-- result_exists embeds ResultStorage.result_exists: resolve the location
(creating the date directory) and test file existence. -/
def result_exists (st : Store) (trade_date selector_name : String) : Store × Bool :=
  ((get_result_path st trade_date selector_name).1, (readRecord st trade_date selector_name).isSome)

/-- endsWithJson name tests whether the file name matches the glob pattern
star-dot-json, i.e. ends with the ".json" extension. -/
def endsWithJson (name : Seg) : Bool :=
  decide (5 ≤ name.length) && decide (name.drop (name.length - 5) = jsonSfx)

/-- stemOf name is pathlib's stem of a name ending in ".json": the name
with the extension removed, except that the bare name ".json" (a leading
dot with no further dot) is its own stem. -/
def stemOf (name : Seg) : Seg :=
  if name = jsonSfx then name else name.take (name.length - 5)

/-- globStems st dd lists the stems of the ".json" files directly inside
the directory dd: the date_dir.glob loop of load_all_results. -/
def globStems (st : Store) (dd : PathT) : List String :=
  st.files.filterMap (fun f =>
    if f.1.take dd.length = dd then
      match f.1.drop dd.length with
      | [name] => if endsWithJson name then some (String.mk (stemOf name)) else none
      | _ => none
    else none)

/-- loadFold d st names runs load_result for each name in order, threading
the store state and collecting the hits, in loop order, into an
association list keyed by the name: the per-name loop of
load_all_results. -/
def loadFold (d : String) : Store → List String → Store × List (String × StockSelectionResult)
  | st, [] => (st, [])
  | st, n :: ns =>
      match load_result st d n with
      | (st1, some r) =>
          let rest := loadFold d st1 ns
          (rest.1, (n, r) :: rest.2)
      | (st1, none) =>
          let rest := loadFold d st1 ns
          (rest.1, rest.2)

/-- load_all_results embeds ResultStorage.load_all_results: nothing if the
date partition is absent; otherwise, for a given truthy (nonempty) selector
list load exactly those, and for an absent or empty list load every ".json"
record found under the partition by its stem. -/
def load_all_results (st : Store) (trade_date : String) (selector_names : Option (List String)) :
    Store × List (String × StockSelectionResult) :=
  let dd := splitSeg trade_date
  if dirExistsB st dd = false then (st, [])
  else
    match selector_names with
    | some (n0 :: rest) => loadFold trade_date st (n0 :: rest)
    | _ => loadFold trade_date st (globStems st dd)

/-- digitsVal l is the natural number denoted by the ASCII digit list l. -/
def digitsVal (l : List Char) : Nat :=
  l.foldl (fun a c => 10 * a + (c.toNat - 48)) 0

/-- isLeap y is Gregorian leap-year validity, as datetime uses. -/
def isLeap (y : Nat) : Bool :=
  decide (y % 4 = 0) && (decide (y % 100 ≠ 0) || decide (y % 400 = 0))

/-- daysInMonth y m is the number of days of month m in year y. -/
def daysInMonth (y m : Nat) : Nat :=
  if m = 2 then (if isLeap y then 29 else 28)
  else if m = 4 ∨ m = 6 ∨ m = 9 ∨ m = 11 then 30
  else 31

/-- calOk y m d is calendar validity of the (proleptic Gregorian) date, as
the datetime constructor checks it: positive year, month 1..12, day within
the month. -/
def calOk (y m d : Nat) : Bool :=
  decide (1 ≤ y) && decide (1 ≤ m) && decide (m ≤ 12) && decide (1 ≤ d) &&
    decide (d ≤ daysInMonth y m)

/-- strptime_date_ok l embeds acceptance of the name l by
datetime.strptime with format Y-m-d: a four-digit year, a one-or-two-digit
month, a one-or-two-digit day separated by hyphens, full-string match,
calendar-valid (digits restricted to ASCII). -/
def strptime_date_ok (l : List Char) : Bool :=
  match splitRaw '-' l [] with
  | [ys, ms, ds] =>
      decide (ys.length = 4) && ys.all Char.isDigit &&
      decide (1 ≤ ms.length) && decide (ms.length ≤ 2) && ms.all Char.isDigit &&
      decide (1 ≤ ds.length) && decide (ds.length ≤ 2) && ds.all Char.isDigit &&
      calOk (digitsVal ys) (digitsVal ms) (digitsVal ds)
  | _ => false

/-- conforming_date l is the specification's reading of a syntactically
valid calendar date in the form YYYY-MM-DD: exactly ten characters with
zero-padded two-digit month and day. Stated from the spec's words, for
comparison with strptime_date_ok which the code actually uses. -/
def conforming_date (l : List Char) : Bool :=
  match splitRaw '-' l [] with
  | [ys, ms, ds] =>
      decide (ys.length = 4) && ys.all Char.isDigit &&
      decide (ms.length = 2) && ms.all Char.isDigit &&
      decide (ds.length = 2) && ds.all Char.isDigit &&
      calOk (digitsVal ys) (digitsVal ms) (digitsVal ds)
  | _ => false

/-- lexLeB is code-point lexicographic order on character lists, matching
Python string comparison on the names involved. -/
def lexLeB : List Char → List Char → Bool
  | [], _ => true
  | _ :: _, [] => false
  | a :: as, b :: bs =>
      if a < b then true
      else if b < a then false
      else lexLeB as bs

/-- insertDesc x l inserts x into the descending-sorted list l, keeping it
descending. -/
def insertDesc (x : List Char) : List (List Char) → List (List Char)
  | [] => [x]
  | y :: ys => if lexLeB y x then x :: y :: ys else y :: insertDesc x ys

/-- sortDesc sorts a list of names in descending lexicographic order,
modelling Python sorted with reverse=True (ties are equal strings, so the
sorted list is unique). -/
def sortDesc (l : List (List Char)) : List (List Char) :=
  l.foldr insertDesc []

/-- rootPartitions st lists the names of the directories sitting directly
under the result directory: the iterdir loop of list_available_dates. -/
def rootPartitions (st : Store) : List Seg :=
  st.dirs.filterMap (fun p => match p with | [n] => some n | _ => none)

/-- list_available_dates embeds ResultStorage.list_available_dates: the
names of the date partitions accepted by strptime, sorted descending. -/
def list_available_dates (st : Store) : List Seg :=
  sortDesc ((rootPartitions st).filter strptime_date_ok)

/-- PyVal models the dynamic value of a selector's last_scores attribute:
either a dict from instrument to score, or any non-dict value. -/
inductive PyVal where
  | dict : List (String × Rat) → PyVal
  | nondict : PyVal
deriving DecidableEq, Repr

deriving instance DecidableEq for Except

/-- Cfg abstracts one strategy configuration entry as run_selection sees
it: the activate flag (with its default true applied), whether
instantiate_selector succeeds, the alias it returns, the optional "class"
key, the outcome of selector.select (a raised exception or the picks), and
the selector's last_scores attribute after select (none when absent). -/
structure Cfg where
  activate : Bool := true
  instOk : Bool := true
  «alias» : String := ""
  className : Option String := none
  selectOutcome : Except String (List String) := Except.ok []
  lastScores : Option PyVal := none
deriving DecidableEq, Repr

/-- selectorName c is cfg.get("class", "Unknown"). -/
def selectorName (c : Cfg) : String :=
  c.className.getD "Unknown"

/-- scoresOf c is the scores the loop attaches to a fresh result: the
last_scores attribute when it exists and is a dict, otherwise none. -/
def scoresOf (c : Cfg) : Option (List (String × Rat)) :=
  match c.lastScores with
  | some (PyVal.dict ds) => some ds
  | _ => none

/-- freshResult dateStr c picks is the StockSelectionResult run_selection
builds after a successful invocation of select returning picks. -/
def freshResult (dateStr : String) (c : Cfg) (picks : List String) : StockSelectionResult :=
  { selector_name := selectorName c
    «alias» := c.«alias»
    trade_date := dateStr
    selected_stocks := picks
    scores := scoresOf c
    count := (picks.length : Int) }

/-- freshStep embeds the invocation part of one loop iteration of
run_selection: run select, catching a raise (the config then contributes
nothing and the state is unchanged); on success append the fresh result
(count = number of picks, scores from the last_scores attribute) and save
it to the store when save_result is set. -/
def freshStep (saveFlag : Bool) (dateStr : String) (c : Cfg)
    (st : Store) (rs : List StockSelectionResult) :
    Store × List StockSelectionResult :=
  match c.selectOutcome with
  | Except.error _ => (st, rs)
  | Except.ok picks =>
      let r := freshResult dateStr c picks
      let st2 := if saveFlag then (save_result st r).1 else st
      (st2, rs ++ [r])

/-- processCfg embeds one iteration of run_selection's per-config loop:
skip inactive configs and failed instantiations, serve a cache hit
unchanged (the stored record, with its stored alias) when use_cache is
set, and otherwise, or on a miss, invoke the strategy via freshStep. -/
def processCfg (useCache saveFlag : Bool) (dateStr : String)
    (acc : Store × List StockSelectionResult) (c : Cfg) :
    Store × List StockSelectionResult :=
  if c.activate = false then acc
  else if c.instOk = false then acc
  else if useCache then
    match load_result acc.1 dateStr (selectorName c) with
    | (st1, some cached) => (st1, acc.2 ++ [cached])
    | (st1, none) => freshStep saveFlag dateStr c st1 acc.2
  else
    freshStep saveFlag dateStr c acc.1 acc.2

/-- run_selection embeds the config loop of api_server.run_selection over
an already-resolved trade date string, threading the result store state
and accumulating the output list in config order. -/
def run_selection (useCache saveFlag : Bool) (dateStr : String) (st : Store)
    (cfgs : List Cfg) : Store × List StockSelectionResult :=
  cfgs.foldl (processCfg useCache saveFlag dateStr) (st, [])

/-- seriesMax l is the maximum date of one instrument series, dates being
modelled as naturals (zero seeding the fold; series are nonempty in use). -/
def seriesMax (l : List Nat) : Nat :=
  l.foldl Nat.max 0

/-- resolve_trade_date embeds the trade-date resolution of run_selection:
a supplied date is used as given, an absent one resolves to the maximum
over every loaded series' own maximum date. -/
def resolve_trade_date (given : Option Nat) (data : List (List Nat)) : Nat :=
  match given with
  | some d => d
  | none => (data.map seriesMax).foldl Nat.max 0

/-- SortedDescLex l states that the list of names l is sorted descending
in the lexicographic order lexLeB. -/
def SortedDescLex (l : List (List Char)) : Prop :=
  l.Pairwise (fun a b => lexLeB b a = true)

/-- countInv r is the count invariant of a selection result: the count
field equals the number of selected stocks. -/
def countInv (r : StockSelectionResult) : Prop :=
  r.count = (r.selected_stocks.length : Int)

/-- storeInv st states that every record stored in st satisfies the count
invariant. -/
def storeInv (st : Store) : Prop :=
  ∀ q ∈ st.files, countInv q.2

theorem splitRaw_no_sep (sep : Char) (l : List Char) (h : ∀ c ∈ l, c ≠ sep) :
    ∀ acc, splitRaw sep l acc = [acc.reverse ++ l] := by
  induction l with
  | nil => intro acc; simp [splitRaw]
  | cons c cs ih =>
      intro acc
      have hc : c ≠ sep := h c (List.mem_cons_self _ _)
      have ih2 := ih (fun x hx => h x (List.mem_cons_of_mem _ hx)) (c :: acc)
      simp [splitRaw, hc, ih2]

theorem listSeg_single (l : List Char) (h0 : l ≠ []) (h1 : l ≠ ['.'])
    (h2 : ∀ c ∈ l, c ≠ '/') : listSeg l = [l] := by
  unfold listSeg
  rw [splitRaw_no_sep '/' l h2 []]
  simp [List.filter, h0, h1]

theorem pathFor_eq (d s : String) (hd0 : d.data ≠ []) (hd1 : d.data ≠ ['.'])
    (hd2 : ∀ c ∈ d.data, c ≠ '/') (hs2 : ∀ c ∈ s.data, c ≠ '/') :
    pathFor d s = [d.data, s.data ++ jsonSfx] := by
  unfold pathFor splitSeg
  rw [listSeg_single d.data hd0 hd1 hd2]
  rw [listSeg_single (s.data ++ jsonSfx) ?h0 ?h1 ?h2]
  · rfl
  case h0 => simp [jsonSfx]
  case h1 =>
      intro h
      have := congrArg List.length h
      simp [jsonSfx] at this
  case h2 =>
      intro c hc
      rcases List.mem_append.mp hc with h | h
      · exact hs2 c h
      · simp [jsonSfx] at h
        rcases h with h | h | h | h | h <;> simp [h]

theorem string_eq_of_data (s t : String) (h : s.data = t.data) : s = t := by
  cases s; cases t; simp_all

theorem pathFor_inj (d1 s1 d2 s2 : String)
    (hd10 : d1.data ≠ []) (hd11 : d1.data ≠ ['.']) (hd12 : ∀ c ∈ d1.data, c ≠ '/')
    (hs12 : ∀ c ∈ s1.data, c ≠ '/')
    (hd20 : d2.data ≠ []) (hd21 : d2.data ≠ ['.']) (hd22 : ∀ c ∈ d2.data, c ≠ '/')
    (hs22 : ∀ c ∈ s2.data, c ≠ '/')
    (h : pathFor d1 s1 = pathFor d2 s2) : d1 = d2 ∧ s1 = s2 := by
  rw [pathFor_eq d1 s1 hd10 hd11 hd12 hs12, pathFor_eq d2 s2 hd20 hd21 hd22 hs22] at h
  simp only [List.cons.injEq, and_true] at h
  exact ⟨string_eq_of_data _ _ h.1, string_eq_of_data _ _ (List.append_cancel_right h.2)⟩

/-- C3, counterexample: address resolution as implemented is not injective
on arbitrary string pairs. The two distinct pairs ("a/b", "c") and
("a", "b/c") resolve to the same storage location, because pathlib splits
each joined component on the path separator. -/
theorem C3_cex :
    pathFor "a/b" "c" = pathFor "a" "b/c" ∧ ("a/b", "c") ≠ (("a", "b/c") : String × String) := by
  exact ⟨by decide, by decide⟩

/-- C3, amended: address resolution is deterministic — the location
get_result_path returns depends only on the (tradeDate, strategyId) pair
and never on the store state — and it is injective provided neither
component contains the path separator (the date also being nonempty and
not the "." segment), which holds for the YYYY-MM-DD dates and class-name
identifiers the orchestrator uses. Injectivity on arbitrary strings fails,
see the counterexample. -/
theorem C3_amended (st1 st2 : Store) (d s d1 s1 d2 s2 : String)
    (hd10 : d1.data ≠ []) (hd11 : d1.data ≠ ['.']) (hd12 : ∀ c ∈ d1.data, c ≠ '/')
    (hs12 : ∀ c ∈ s1.data, c ≠ '/')
    (hd20 : d2.data ≠ []) (hd21 : d2.data ≠ ['.']) (hd22 : ∀ c ∈ d2.data, c ≠ '/')
    (hs22 : ∀ c ∈ s2.data, c ≠ '/') :
    (get_result_path st1 d s).2 = (get_result_path st2 d s).2
    ∧ (pathFor d1 s1 = pathFor d2 s2 → d1 = d2 ∧ s1 = s2) :=
  ⟨rfl, pathFor_inj d1 s1 d2 s2 hd10 hd11 hd12 hs12 hd20 hd21 hd22 hs22⟩

/-- C3, witness: the amended theorem applied at two concrete stores and at
the concrete pairs (2024-01-10, BBIKDJSelector) and (2024-01-11,
BBIKDJSelector). -/
theorem C3_witness :
    (get_result_path ⟨[], []⟩ "2024-01-10" "BBIKDJSelector").2 =
      (get_result_path ⟨[["x".data]], []⟩ "2024-01-10" "BBIKDJSelector").2
    ∧ (pathFor "2024-01-10" "BBIKDJSelector" = pathFor "2024-01-11" "BBIKDJSelector" →
        ("2024-01-10" : String) = "2024-01-11" ∧ ("BBIKDJSelector" : String) = "BBIKDJSelector") :=
  C3_amended ⟨[], []⟩ ⟨[["x".data]], []⟩ "2024-01-10" "BBIKDJSelector"
    "2024-01-10" "BBIKDJSelector" "2024-01-11" "BBIKDJSelector"
    (by decide) (by decide) (by decide) (by decide) (by decide) (by decide) (by decide) (by decide)

theorem alookup_setFile_self (fs : List (PathT × StockSelectionResult)) (p : PathT)
    (r : StockSelectionResult) : alookup (setFile fs p r) p = some r := by
  simp [setFile, alookup]

theorem mem_addDir (ds : List PathT) (p q : PathT) : q ∈ addDir ds p ↔ q ∈ ds ∨ q = p := by
  unfold addDir
  split
  · constructor
    · exact Or.inl
    · rintro (h1 | rfl)
      · exact h1
      · assumption
  · simp [List.mem_append]

theorem mem_foldl_addDir (l : List PathT) (ds : List PathT) (q : PathT) :
    q ∈ l.foldl addDir ds ↔ q ∈ ds ∨ q ∈ l := by
  induction l generalizing ds with
  | nil => simp
  | cons p ps ih =>
      simp only [List.foldl_cons, ih, mem_addDir, List.mem_cons]
      tauto

theorem mem_mkdirP (st : Store) (segs : PathT) (q : PathT) :
    q ∈ (mkdirP st segs).dirs ↔ q ∈ st.dirs ∨ q ∈ prefixesNE segs := by
  simp [mkdirP, mem_foldl_addDir]

theorem files_mkdirP (st : Store) (segs : PathT) : (mkdirP st segs).files = st.files := rfl

theorem listSeg_json (s : String) (hs : ∀ c ∈ s.data, c ≠ '/') :
    listSeg (s.data ++ jsonSfx) = [s.data ++ jsonSfx] := by
  apply listSeg_single
  · simp [jsonSfx]
  · intro he
    have hlen := congrArg List.length he
    simp [jsonSfx] at hlen
  · intro c hc
    rcases List.mem_append.mp hc with h | h
    · exact hs c h
    · simp [jsonSfx] at h
      rcases h with h | h | h | h | h <;> simp [h]

theorem self_mem_prefixesNE (segs : PathT) (h : segs ≠ []) : segs ∈ prefixesNE segs := by
  unfold prefixesNE
  rw [List.mem_map]
  refine ⟨segs.length - 1, ?_, ?_⟩
  · rw [List.mem_range]
    have := List.length_pos.mpr h
    omega
  · have hlen : segs.length - 1 + 1 = segs.length := by
      have := List.length_pos.mpr h
      omega
    rw [hlen, List.take_length]

theorem length_le_of_mem_prefixesNE (q segs : PathT) (h : q ∈ prefixesNE segs) :
    q.length ≤ segs.length := by
  unfold prefixesNE at h
  rw [List.mem_map] at h
  rcases h with ⟨i, hi, he⟩
  rw [← he, List.length_take]
  exact Nat.min_le_right _ _

/-- C2, counterexample: the unrestricted put/get round trip fails. For a
record whose selector_name is the nested string a/b, the resolved location
is date/a/b.json whose parent directory date/a was never created (only the
date directory is), so the write deterministically fails: save_result
reports False, nothing is written, and the subsequent load returns absent
rather than a record equal to r. -/
theorem C2_cex :
    (save_result ⟨[], []⟩
        ({ selector_name := "a/b", «alias» := "x", trade_date := "2024-01-01",
           selected_stocks := [], scores := none, count := 0 } : StockSelectionResult)).2 = false
    ∧ (load_result (save_result ⟨[], []⟩
        ({ selector_name := "a/b", «alias» := "x", trade_date := "2024-01-01",
           selected_stocks := [], scores := none, count := 0 } : StockSelectionResult)).1
        "2024-01-01" "a/b").2 = none :=
  ⟨by decide, by decide⟩

/-- C2, amended: the put/get round trip holds for every store and every
record whose selector_name is free of the path separator (as real class
names are) and whose resolved location is not occupied by a directory:
save_result succeeds and load_result at (r.trade_date, r.selector_name)
returns a record equal to r in every field — selector_name, alias,
trade_date, selected_stocks with order, scores, count — so an absent
scores (none) stays absent, the loaded record being r itself. For a
nested selector name the write deterministically fails and the load
returns absent (see the counterexample). -/
theorem C2_amended (st : Store) (r : StockSelectionResult)
    (hs : ∀ c ∈ r.selector_name.data, c ≠ '/')
    (hnd : pathFor r.trade_date r.selector_name ∉ st.dirs) :
    (save_result st r).2 = true
    ∧ (load_result (save_result st r).1 r.trade_date r.selector_name).2 = some r := by
  have hp : pathFor r.trade_date r.selector_name
      = splitSeg r.trade_date ++ [r.selector_name.data ++ jsonSfx] := by
    unfold pathFor
    rw [listSeg_json r.selector_name hs]
  have hcond : dirExistsB (mkdirP st (splitSeg r.trade_date))
        (pathFor r.trade_date r.selector_name).dropLast = true
      ∧ pathFor r.trade_date r.selector_name ∉ (mkdirP st (splitSeg r.trade_date)).dirs := by
    constructor
    · rw [hp, List.dropLast_concat]
      unfold dirExistsB
      by_cases hdd : splitSeg r.trade_date = []
      · simp [hdd]
      · have hmem : splitSeg r.trade_date ∈ (mkdirP st (splitSeg r.trade_date)).dirs :=
          (mem_mkdirP st _ _).mpr (Or.inr (self_mem_prefixesNE _ hdd))
        simp [hmem]
    · intro hin
      rcases (mem_mkdirP st _ _).mp hin with h1 | h1
      · exact hnd h1
      · have hle := length_le_of_mem_prefixesNE _ _ h1
        rw [hp] at hle
        simp at hle
  have hsave : save_result st r
      = ({ mkdirP st (splitSeg r.trade_date) with
            files := setFile (mkdirP st (splitSeg r.trade_date)).files
              (pathFor r.trade_date r.selector_name) r }, true) := by
    simp only [save_result, get_result_path]
    rw [if_pos hcond]
  constructor
  · rw [hsave]
  · rw [hsave]
    show readRecord _ r.trade_date r.selector_name = some r
    unfold readRecord
    exact alookup_setFile_self _ _ _

/-- C2, witness: the amended theorem applied over the empty store to a
concrete record with a real class name, BBIKDJSelector, and no scores: the
write succeeds and the load returns exactly the record. -/
theorem C2_witness :
    (save_result ⟨[], []⟩
        ({ selector_name := "BBIKDJSelector", «alias» := "带量KDJ", trade_date := "2024-01-10",
           selected_stocks := ["600519", "000001"], scores := none, count := 2 }
          : StockSelectionResult)).2 = true
    ∧ (load_result (save_result ⟨[], []⟩
        ({ selector_name := "BBIKDJSelector", «alias» := "带量KDJ", trade_date := "2024-01-10",
           selected_stocks := ["600519", "000001"], scores := none, count := 2 }
          : StockSelectionResult)).1
        "2024-01-10" "BBIKDJSelector").2
      = some { selector_name := "BBIKDJSelector", «alias» := "带量KDJ",
               trade_date := "2024-01-10", selected_stocks := ["600519", "000001"],
               scores := none, count := 2 } :=
  C2_amended ⟨[], []⟩
    { selector_name := "BBIKDJSelector", «alias» := "带量KDJ", trade_date := "2024-01-10",
      selected_stocks := ["600519", "000001"], scores := none, count := 2 }
    (by decide) (by decide)

theorem lexLeB_cons_iff (x y : Char) (xs ys : List Char) :
    lexLeB (x :: xs) (y :: ys) = true ↔
      x < y ∨ (x = y ∧ lexLeB xs ys = true) := by
  simp only [lexLeB]
  rcases lt_trichotomy x y with h | h | h
  · simp [h]
  · simp [h, lt_self_iff_false]
  · have hnl : ¬ x < y := asymm h
    have hne : x ≠ y := ne_of_gt h
    simp [hnl, h, hne]

theorem lexLeB_total (a : List Char) : ∀ b, lexLeB a b = true ∨ lexLeB b a = true := by
  induction a with
  | nil => intro b; exact Or.inl rfl
  | cons x xs ih =>
      intro b
      cases b with
      | nil => exact Or.inr rfl
      | cons y ys =>
          rw [lexLeB_cons_iff, lexLeB_cons_iff]
          rcases lt_trichotomy x y with h | h | h
          · exact Or.inl (Or.inl h)
          · rcases ih ys with h2 | h2
            · exact Or.inl (Or.inr ⟨h, h2⟩)
            · exact Or.inr (Or.inr ⟨h.symm, h2⟩)
          · exact Or.inr (Or.inl h)

theorem lexLeB_trans (a : List Char) : ∀ b c, lexLeB a b = true → lexLeB b c = true →
    lexLeB a c = true := by
  induction a with
  | nil => intro b c _ _; rfl
  | cons x xs ih =>
      intro b c hab hbc
      cases b with
      | nil => simp [lexLeB] at hab
      | cons y ys =>
          cases c with
          | nil => simp [lexLeB] at hbc
          | cons z zs =>
              rw [lexLeB_cons_iff] at hab hbc ⊢
              rcases hab with h1 | ⟨h1, h1r⟩ <;> rcases hbc with h2 | ⟨h2, h2r⟩
              · exact Or.inl (lt_trans h1 h2)
              · exact Or.inl (h2 ▸ h1)
              · exact Or.inl (h1 ▸ h2)
              · exact Or.inr ⟨h1.trans h2, ih ys zs h1r h2r⟩

theorem mem_insertDesc (x b : List Char) (l : List (List Char)) :
    b ∈ insertDesc x l ↔ b = x ∨ b ∈ l := by
  induction l with
  | nil => simp [insertDesc]
  | cons y ys ih =>
      unfold insertDesc
      split
      · simp [List.mem_cons]
      · simp [List.mem_cons, ih]
        tauto

theorem pairwise_insertDesc (x : List Char) (l : List (List Char))
    (h : SortedDescLex l) : SortedDescLex (insertDesc x l) := by
  induction l with
  | nil => simp [insertDesc, SortedDescLex]
  | cons y ys ih =>
      unfold insertDesc
      split
      next hyx =>
        refine List.Pairwise.cons ?_ h
        intro b hb
        rcases List.mem_cons.mp hb with rfl | hb2
        · exact hyx
        · have hby : lexLeB b y = true := (List.pairwise_cons.mp h).1 b hb2
          exact lexLeB_trans b y x hby hyx
      next hyx =>
        have hxy : lexLeB x y = true := by
          rcases lexLeB_total y x with h1 | h1
          · exact absurd h1 hyx
          · exact h1
        refine List.Pairwise.cons ?_ (ih (List.pairwise_cons.mp h).2)
        intro b hb
        rcases (mem_insertDesc x b ys).mp hb with rfl | hb2
        · exact hxy
        · exact (List.pairwise_cons.mp h).1 b hb2

theorem mem_sortDesc (l : List (List Char)) (b : List Char) : b ∈ sortDesc l ↔ b ∈ l := by
  induction l with
  | nil => simp [sortDesc]
  | cons y ys ih =>
      have h : sortDesc (y :: ys) = insertDesc y (sortDesc ys) := rfl
      rw [h, mem_insertDesc]
      simp [ih]

theorem sorted_sortDesc (l : List (List Char)) : SortedDescLex (sortDesc l) := by
  induction l with
  | nil => simp [sortDesc, SortedDescLex]
  | cons y ys ih =>
      have h : sortDesc (y :: ys) = insertDesc y (sortDesc ys) := rfl
      rw [h]
      exact pairwise_insertDesc y _ ih

theorem mem_rootPartitions (st : Store) (n : Seg) : n ∈ rootPartitions st ↔ [n] ∈ st.dirs := by
  unfold rootPartitions
  rw [List.mem_filterMap]
  constructor
  · rintro ⟨p, hp, he⟩
    rcases p with _ | ⟨x, _ | ⟨y, t⟩⟩
    · simp at he
    · simp at he
      exact he ▸ hp
    · simp at he
  · intro h
    exact ⟨[n], h, rfl⟩

theorem mem_list_available_dates (st : Store) (n : Seg) :
    n ∈ list_available_dates st ↔ n ∈ rootPartitions st ∧ strptime_date_ok n = true := by
  unfold list_available_dates
  rw [mem_sortDesc, List.mem_filter]

/-- C8, counterexample: the partition name 2024-1-1 is accepted by the
strptime parse the code uses (month and day need not be zero-padded) and
is returned by list_available_dates, although it is not a date in the form
YYYY-MM-DD; the claim predicts it is silently discarded. -/
theorem C8_cex :
    list_available_dates ⟨[["2024-1-1".data]], []⟩ = ["2024-1-1".data]
    ∧ conforming_date ("2024-1-1".data) = false :=
  ⟨by decide, by decide⟩

/-- C8, amended: list_available_dates returns exactly the partition names
accepted by the strptime date parse — every syntactically valid
YYYY-MM-DD calendar date is accepted, but names with an unpadded
one-digit month or day are accepted as well — sorted descending in
lexicographic string order (which on zero-padded names is most recent
first); on the spec's example partitions the output is exactly as
claimed. -/
theorem C8_amended (st : Store) :
    (∀ n, n ∈ list_available_dates st ↔ n ∈ rootPartitions st ∧ strptime_date_ok n = true)
    ∧ SortedDescLex (list_available_dates st)
    ∧ (∀ n, conforming_date n = true → strptime_date_ok n = true)
    ∧ list_available_dates ⟨[["2024-01-10".data], ["not-a-date".data], ["2024-02-01".data]], []⟩
        = ["2024-02-01".data, "2024-01-10".data] := by
  refine ⟨mem_list_available_dates st, sorted_sortDesc _, ?_, by decide⟩
  intro n h
  unfold conforming_date at h
  unfold strptime_date_ok
  rcases hs : splitRaw '-' n [] with _ | ⟨ys, _ | ⟨ms, _ | ⟨ds, _ | ⟨e4, rest⟩⟩⟩⟩ <;> rw [hs] at h
  · simp at h
  · simp at h
  · simp at h
  · simp only [Bool.and_eq_true, decide_eq_true_eq] at h ⊢
    obtain ⟨⟨⟨⟨⟨⟨h1, h2⟩, h3⟩, h4⟩, h5⟩, h6⟩, h7⟩ := h
    exact ⟨⟨⟨⟨⟨⟨⟨⟨h1, h2⟩, by omega⟩, by omega⟩, h4⟩, by omega⟩, by omega⟩, h6⟩, h7⟩
  · simp at h

/-- C8, witness: the amended theorem applied at the empty store, third
conjunct instantiated at the conforming name 2024-01-10. -/
theorem C8_witness : strptime_date_ok ("2024-01-10".data) = true :=
  (C8_amended ⟨[], []⟩).2.2.1 ("2024-01-10".data) (by decide)

theorem splitSeg_single (d : String) (h0 : d.data ≠ []) (h1 : d.data ≠ ['.'])
    (h2 : ∀ c ∈ d.data, c ≠ '/') : splitSeg d = [d.data] :=
  listSeg_single d.data h0 h1 h2

/-- C9, counterexample: a negative existence check at the previously
unseen date name not-a-date does create the partition directory, yet that
date never appears in list_available_dates, because the listing filters
out names the date parse rejects; the claim predicts it appears. -/
theorem C9_cex :
    (result_exists ⟨[], []⟩ "not-a-date" "BBIKDJSelector").2 = false
    ∧ (result_exists ⟨[], []⟩ "not-a-date" "BBIKDJSelector").1.dirs = [["not-a-date".data]]
    ∧ list_available_dates (result_exists ⟨[], []⟩ "not-a-date" "BBIKDJSelector").1 = [] :=
  ⟨by decide, by decide, by decide⟩

/-- C9, amended: every read-path operation (result_exists and load_result
alike) creates the queried date partition directory as a side effect, even
when no record exists there; the created partition then appears in
list_available_dates exactly when its name is accepted by the date parse,
so a parseable date appears after a negative existence check while a
non-parsing name's partition is created but never listed. -/
theorem C9_amended (st : Store) (d s : String)
    (h0 : d.data ≠ []) (h1 : d.data ≠ ['.']) (h2 : ∀ c ∈ d.data, c ≠ '/') :
    [d.data] ∈ (result_exists st d s).1.dirs
    ∧ [d.data] ∈ (load_result st d s).1.dirs
    ∧ (strptime_date_ok d.data = true → d.data ∈ list_available_dates (result_exists st d s).1)
    ∧ (strptime_date_ok d.data = false → d.data ∉ list_available_dates (result_exists st d s).1) := by
  have hss : splitSeg d = [d.data] := listSeg_single d.data h0 h1 h2
  have hmem : [d.data] ∈ (result_exists st d s).1.dirs := by
    show [d.data] ∈ (mkdirP st (splitSeg d)).dirs
    rw [mem_mkdirP, hss]
    right
    simp [prefixesNE]
  refine ⟨hmem, hmem, ?_, ?_⟩
  · intro hok
    rw [mem_list_available_dates]
    exact ⟨(mem_rootPartitions _ _).mpr hmem, hok⟩
  · intro hbad hmem2
    rw [mem_list_available_dates] at hmem2
    simp [hbad] at hmem2

/-- C9, witness: the amended theorem applied at the empty store and the
parseable date 2024-03-05: the partition is created by the existence check
and the date is then listed. -/
theorem C9_witness :
    [("2024-03-05").data] ∈ (result_exists ⟨[], []⟩ "2024-03-05" "BBIKDJSelector").1.dirs
    ∧ ("2024-03-05").data ∈
        list_available_dates (result_exists ⟨[], []⟩ "2024-03-05" "BBIKDJSelector").1 := by
  have h := C9_amended ⟨[], []⟩ "2024-03-05" "BBIKDJSelector" (by decide) (by decide) (by decide)
  exact ⟨h.1, h.2.2.1 (by decide)⟩

theorem le_foldl_max (l : List Nat) : ∀ a, a ≤ l.foldl Nat.max a := by
  induction l with
  | nil => intro a; exact Nat.le_refl a
  | cons x xs ih =>
      intro a
      exact le_trans (Nat.le_max_left a x) (ih (Nat.max a x))

theorem mem_le_foldl_max (l : List Nat) : ∀ a x, x ∈ l → x ≤ l.foldl Nat.max a := by
  induction l with
  | nil =>
      intro a x hx
      simp at hx
  | cons y ys ih =>
      intro a x hx
      rcases List.mem_cons.mp hx with rfl | hx2
      · exact le_trans (Nat.le_max_right a x) (le_foldl_max ys (Nat.max a x))
      · exact ih (Nat.max a y) x hx2

theorem foldl_max_mem (l : List Nat) : ∀ a, l.foldl Nat.max a = a ∨ l.foldl Nat.max a ∈ l := by
  induction l with
  | nil => intro a; exact Or.inl rfl
  | cons x xs ih =>
      intro a
      rcases ih (Nat.max a x) with h | h
      · rcases le_total a x with hax | hxa
        · right
          have hmax : Nat.max a x = x := by have hd : Nat.max a x = if a ≤ x then x else a := rfl; rw [hd]; split <;> omega
          rw [List.foldl_cons, h, hmax]
          exact List.mem_cons_self _ _
        · left
          have hmax : Nat.max a x = a := by have hd : Nat.max a x = if a ≤ x then x else a := rfl; rw [hd]; split <;> omega
          rw [List.foldl_cons, h, hmax]
      · right
        rw [List.foldl_cons]
        exact List.mem_cons_of_mem _ h

/-- C6: when tradeDate is not supplied, run_selection resolves it to the
maximum over every loaded series' own maximum date: the resolved value
bounds every series maximum from above and is itself one of the series
maxima, hence it is exactly the maximum across all loaded series. -/
theorem C6_thm (data : List (List Nat)) (h : data ≠ []) :
    (∀ l ∈ data, seriesMax l ≤ resolve_trade_date none data)
    ∧ resolve_trade_date none data ∈ data.map seriesMax := by
  constructor
  · intro l hl
    exact mem_le_foldl_max (data.map seriesMax) 0 (seriesMax l) (List.mem_map_of_mem seriesMax hl)
  · show (data.map seriesMax).foldl Nat.max 0 ∈ data.map seriesMax
    rcases foldl_max_mem (data.map seriesMax) 0 with h0 | h0
    · rcases data with _ | ⟨l0, rest⟩
      · exact absurd rfl h
      · have hm : seriesMax l0 ∈ (l0 :: rest).map seriesMax :=
          List.mem_map_of_mem seriesMax (List.mem_cons_self _ _)
        have hle : seriesMax l0 ≤ ((l0 :: rest).map seriesMax).foldl Nat.max 0 :=
          mem_le_foldl_max _ 0 _ hm
        rw [h0] at hle
        have hz : seriesMax l0 = 0 := Nat.le_zero.mp hle
        rw [h0, ← hz]
        exact hm
    · exact h0

/-- C6, witness: three series with maximum dates 20240110, 20240112 and
20240111 (encoding 2024-01-10, 2024-01-12, 2024-01-11) resolve an
unspecified trade date to 20240112, and the theorem applies to them. -/
theorem C6_witness :
    resolve_trade_date none [[20240110], [20240112], [20240111]] = 20240112
    ∧ resolve_trade_date none [[20240110], [20240112], [20240111]] ∈
        ([[20240110], [20240112], [20240111]].map seriesMax) :=
  ⟨by decide, (C6_thm [[20240110], [20240112], [20240111]] (by decide)).2⟩

theorem processCfg_error (sf : Bool) (d : String) (acc : Store × List StockSelectionResult)
    (c : Cfg) (e : String) (hs : c.selectOutcome = Except.error e) :
    processCfg false sf d acc c = acc := by
  unfold processCfg freshStep
  by_cases h1 : c.activate = false
  · rw [if_pos h1]
  · rw [if_neg h1]
    by_cases h2 : c.instOk = false
    · rw [if_pos h2]
    · rw [if_neg h2, if_neg Bool.false_ne_true]
      simp [hs]

/-- C1: partial-failure isolation. With caching off, a config whose
invocation of select raises contributes no output entry and leaves store
and output untouched, so the run over any config list containing it equals
the run with it removed; in particular over three active, instantiable
configs of which only the second raises, the output is exactly the first
and third configs' fresh results, in that order, and the run (a total
function) completes without raising. -/
theorem C1_thm (sf : Bool) (d : String) (st : Store) (pre post : List Cfg)
    (c1 c2 c3 : Cfg) (p1 p3 : List String) (e : String)
    (h2s : c2.selectOutcome = Except.error e)
    (h1a : c1.activate = true) (h1i : c1.instOk = true) (h1s : c1.selectOutcome = Except.ok p1)
    (h3a : c3.activate = true) (h3i : c3.instOk = true) (h3s : c3.selectOutcome = Except.ok p3) :
    run_selection false sf d st (pre ++ c2 :: post) = run_selection false sf d st (pre ++ post)
    ∧ (run_selection false sf d st [c1, c2, c3]).2 = [freshResult d c1 p1, freshResult d c3 p3] := by
  constructor
  · unfold run_selection
    rw [List.foldl_append, List.foldl_append, List.foldl_cons,
      processCfg_error sf d _ c2 e h2s]
  · unfold run_selection
    cases sf <;>
      simp [processCfg, freshStep, h1a, h1i, h1s, h2s, h3a, h3i, h3s]

/-- C1, witness: the theorem applied to three concrete configs (the second
raising) over the empty store with save_result on. -/
theorem C1_witness :
    run_selection false true "2024-01-02" ⟨[], []⟩
        ([] ++ ({ selectOutcome := Except.error "boom" } : Cfg) :: [])
      = run_selection false true "2024-01-02" ⟨[], []⟩ ([] ++ [])
    ∧ (run_selection false true "2024-01-02" ⟨[], []⟩
        [{ className := some "S1", selectOutcome := Except.ok ["600519"] },
         { selectOutcome := Except.error "boom" },
         { className := some "S3", selectOutcome := Except.ok [] }]).2
      = [freshResult "2024-01-02"
           { className := some "S1", selectOutcome := Except.ok ["600519"] } ["600519"],
         freshResult "2024-01-02"
           { className := some "S3", selectOutcome := Except.ok [] } []] :=
  C1_thm true "2024-01-02" ⟨[], []⟩ [] []
    { className := some "S1", selectOutcome := Except.ok ["600519"] }
    { selectOutcome := Except.error "boom" }
    { className := some "S3", selectOutcome := Except.ok [] }
    ["600519"] [] "boom" rfl rfl rfl rfl rfl rfl rfl

theorem processCfg_cachehit (sf : Bool) (d : String) (st : Store)
    (rs : List StockSelectionResult) (c : Cfg) (r : StockSelectionResult)
    (ha : c.activate = true) (hi : c.instOk = true)
    (hhit : readRecord st d (selectorName c) = some r) :
    processCfg true sf d (st, rs) c = (mkdirP st (splitSeg d), rs ++ [r]) := by
  unfold processCfg
  rw [if_neg (by simp [ha]), if_neg (by simp [hi]), if_pos rfl]
  unfold load_result get_result_path
  rw [hhit]

/-- C4: cache-hit behaviour. For an active, instantiable config whose
(tradeDate, selectorName) has a stored record r, the loop step appends the
stored record unchanged (in particular the stored alias wins, as r is
appended verbatim), leaves the stored files untouched even when
save_result is set (only the partition mkdir side effect occurs), yields
output [r] for a single-config run, and is independent of the outcome
select would have had: select is not invoked. -/
theorem C4_thm (sf : Bool) (d : String) (st : Store) (rs : List StockSelectionResult)
    (c : Cfg) (r : StockSelectionResult)
    (ha : c.activate = true) (hi : c.instOk = true)
    (hhit : readRecord st d (selectorName c) = some r) :
    processCfg true sf d (st, rs) c = (mkdirP st (splitSeg d), rs ++ [r])
    ∧ (processCfg true sf d (st, rs) c).1.files = st.files
    ∧ (run_selection true sf d st [c]).2 = [r]
    ∧ ∀ o, processCfg true sf d (st, rs) { c with selectOutcome := o } =
        processCfg true sf d (st, rs) c := by
  have h1 := processCfg_cachehit sf d st rs c r ha hi hhit
  have h2 := processCfg_cachehit sf d st [] c r ha hi hhit
  refine ⟨h1, ?_, ?_, ?_⟩
  · rw [h1]
    rfl
  · unfold run_selection
    rw [List.foldl_cons, h2, List.foldl_nil]
    rfl
  · intro o
    have h3 := processCfg_cachehit sf d st rs { c with selectOutcome := o } r ha hi hhit
    rw [h3, h1]

/-- C4, witness: a store holding a record with alias "stored alias" served
for a config carrying alias "new alias": the stored record is returned
unchanged and the files are untouched despite save_result being true. -/
theorem C4_witness :
    (processCfg true true "2024-01-01"
        (⟨[["2024-01-01".data]],
          [(pathFor "2024-01-01" "Foo",
            { selector_name := "Foo", «alias» := "stored alias", trade_date := "2024-01-01",
              selected_stocks := ["600519"], scores := none, count := 1 })]⟩, [])
        { className := some "Foo", «alias» := "new alias" }).1.files
      = [(pathFor "2024-01-01" "Foo",
          { selector_name := "Foo", «alias» := "stored alias", trade_date := "2024-01-01",
            selected_stocks := ["600519"], scores := none, count := 1 })]
    ∧ (run_selection true true "2024-01-01"
        ⟨[["2024-01-01".data]],
         [(pathFor "2024-01-01" "Foo",
           { selector_name := "Foo", «alias» := "stored alias", trade_date := "2024-01-01",
             selected_stocks := ["600519"], scores := none, count := 1 })]⟩
        [{ className := some "Foo", «alias» := "new alias" }]).2
      = [{ selector_name := "Foo", «alias» := "stored alias", trade_date := "2024-01-01",
           selected_stocks := ["600519"], scores := none, count := 1 }] := by
  have h := C4_thm true "2024-01-01"
    ⟨[["2024-01-01".data]],
     [(pathFor "2024-01-01" "Foo",
       { selector_name := "Foo", «alias» := "stored alias", trade_date := "2024-01-01",
         selected_stocks := ["600519"], scores := none, count := 1 })]⟩ []
    { className := some "Foo", «alias» := "new alias" }
    { selector_name := "Foo", «alias» := "stored alias", trade_date := "2024-01-01",
      selected_stocks := ["600519"], scores := none, count := 1 }
    rfl rfl (by decide)
  exact ⟨h.2.1, h.2.2.1⟩

/-- C10: scores attachment. After a successful invocation of select the
built result's scores equal the selector's last_scores attribute exactly
when that attribute exists and is a dict; when the attribute is missing or
is not a dict, scores is none, and the run still returns normally. -/
theorem C10_thm (sf : Bool) (d : String) (st : Store) (c : Cfg) (picks : List String)
    (ha : c.activate = true) (hi : c.instOk = true) (hs : c.selectOutcome = Except.ok picks) :
    (run_selection false sf d st [c]).2 = [freshResult d c picks]
    ∧ (∀ ds, c.lastScores = some (PyVal.dict ds) → (freshResult d c picks).scores = some ds)
    ∧ (c.lastScores = none → (freshResult d c picks).scores = none)
    ∧ (c.lastScores = some PyVal.nondict → (freshResult d c picks).scores = none) := by
  refine ⟨?_, ?_, ?_, ?_⟩
  · unfold run_selection
    cases sf <;> simp [processCfg, freshStep, ha, hi, hs]
  · intro ds hds
    simp [freshResult, scoresOf, hds]
  · intro hn
    simp [freshResult, scoresOf, hn]
  · intro hnd
    simp [freshResult, scoresOf, hnd]

/-- C10, witness: a config whose selector exposes a dict last_scores: the
fresh result carries exactly that dict as scores. -/
theorem C10_witness :
    (run_selection false false "2024-01-02" ⟨[], []⟩
        [{ className := some "S", selectOutcome := Except.ok ["600519"],
           lastScores := some (PyVal.dict [("600519", 95)]) }]).2
      = [freshResult "2024-01-02"
           { className := some "S", selectOutcome := Except.ok ["600519"],
             lastScores := some (PyVal.dict [("600519", 95)]) } ["600519"]]
    ∧ (freshResult "2024-01-02"
         { className := some "S", selectOutcome := Except.ok ["600519"],
           lastScores := some (PyVal.dict [("600519", 95)]) } ["600519"]).scores
        = some [("600519", 95)] :=
  ⟨(C10_thm false "2024-01-02" ⟨[], []⟩
      { className := some "S", selectOutcome := Except.ok ["600519"],
        lastScores := some (PyVal.dict [("600519", 95)]) } ["600519"] rfl rfl rfl).1,
   (C10_thm false "2024-01-02" ⟨[], []⟩
      { className := some "S", selectOutcome := Except.ok ["600519"],
        lastScores := some (PyVal.dict [("600519", 95)]) } ["600519"] rfl rfl rfl).2.1
     [("600519", 95)] rfl⟩

theorem mem_alookup {a b : Type} [DecidableEq a] (l : List (a × b)) (k : a) (v : b)
    (h : alookup l k = some v) : (k, v) ∈ l := by
  induction l with
  | nil => simp [alookup] at h
  | cons q qs ih =>
      unfold alookup at h
      split at h
      next heq =>
        simp only [Option.some.injEq] at h
        rcases q with ⟨qk, qv⟩
        simp only at heq h
        subst heq
        subst h
        exact List.mem_cons_self _ _
      next => exact List.mem_cons_of_mem _ (ih h)

theorem storeInv_mkdirP (st : Store) (segs : PathT) (h : storeInv st) :
    storeInv (mkdirP st segs) := by
  intro q hq
  exact h q hq

theorem mem_setFile (fs : List (PathT × StockSelectionResult)) (p : PathT)
    (r : StockSelectionResult) (q : PathT × StockSelectionResult)
    (h : q ∈ setFile fs p r) : q = (p, r) ∨ q ∈ fs := by
  unfold setFile at h
  rcases List.mem_cons.mp h with h1 | h1
  · exact Or.inl h1
  · exact Or.inr (List.mem_filter.mp h1).1

theorem storeInv_save (st : Store) (r : StockSelectionResult) (h : storeInv st)
    (hr : countInv r) : storeInv (save_result st r).1 := by
  simp only [save_result, get_result_path]
  split
  · intro q hq
    rcases mem_setFile _ _ _ _ hq with h1 | h1
    · rw [h1]
      exact hr
    · exact h q h1
  · intro q hq
    exact h q hq

theorem freshStep_inv (sf : Bool) (d : String) (c : Cfg) (st : Store)
    (rs : List StockSelectionResult) (hstore : storeInv st)
    (hres : ∀ r2 ∈ rs, countInv r2) :
    storeInv (freshStep sf d c st rs).1 ∧ ∀ r2 ∈ (freshStep sf d c st rs).2, countInv r2 := by
  unfold freshStep
  rcases hS : c.selectOutcome with e | picks
  · exact ⟨hstore, hres⟩
  · rcases hSF : sf with _ | _
    · refine ⟨hstore, ?_⟩
      intro r2 hr2
      rcases List.mem_append.mp hr2 with h | h
      · exact hres r2 h
      · have h3 : r2 = freshResult d c picks := by simpa using h
        rw [h3]
        rfl
    · refine ⟨storeInv_save st _ hstore rfl, ?_⟩
      intro r2 hr2
      rcases List.mem_append.mp hr2 with h | h
      · exact hres r2 h
      · have h3 : r2 = freshResult d c picks := by simpa using h
        rw [h3]
        rfl

theorem processCfg_inv (uc sf : Bool) (d : String) (acc : Store × List StockSelectionResult)
    (c : Cfg) (hstore : storeInv acc.1) (hres : ∀ r2 ∈ acc.2, countInv r2) :
    storeInv (processCfg uc sf d acc c).1 ∧ ∀ r2 ∈ (processCfg uc sf d acc c).2, countInv r2 := by
  unfold processCfg
  by_cases hA : c.activate = false
  · rw [if_pos hA]
    exact ⟨hstore, hres⟩
  · rw [if_neg hA]
    by_cases hI : c.instOk = false
    · rw [if_pos hI]
      exact ⟨hstore, hres⟩
    · rw [if_neg hI]
      rcases hUC : uc with _ | _
      · rw [if_neg Bool.false_ne_true]
        exact freshStep_inv sf d c acc.1 acc.2 hstore hres
      · rw [if_pos rfl]
        unfold load_result get_result_path
        rcases hR : readRecord acc.1 d (selectorName c) with _ | cr
        · exact freshStep_inv sf d c (mkdirP acc.1 (splitSeg d)) acc.2
            (storeInv_mkdirP _ _ hstore) hres
        · refine ⟨storeInv_mkdirP _ _ hstore, ?_⟩
          intro r2 hr2
          rcases List.mem_append.mp hr2 with h | h
          · exact hres r2 h
          · have h3 : r2 = cr := by simpa using h
            rw [h3]
            exact hstore _ (mem_alookup _ _ _ hR)

/-- C7, amended: every freshly computed result satisfies
count = length(selected_stocks) unconditionally, and every result returned
by run_selection (cached ones included) satisfies it provided every record
already in the store does — e.g. when the store was populated by
save_result from fresh results. Without that proviso the claim fails,
because a cache hit returns the stored count verbatim (see the
counterexample). -/
theorem C7_amended (uc sf : Bool) (d : String) (st : Store) (cfgs : List Cfg)
    (hstore : storeInv st) :
    ∀ r2 ∈ (run_selection uc sf d st cfgs).2, countInv r2 := by
  suffices h : ∀ acc : Store × List StockSelectionResult, storeInv acc.1 →
      (∀ r2 ∈ acc.2, countInv r2) →
      (storeInv (cfgs.foldl (processCfg uc sf d) acc).1 ∧
        ∀ r2 ∈ (cfgs.foldl (processCfg uc sf d) acc).2, countInv r2) by
    exact (h (st, []) hstore (by simp)).2
  induction cfgs with
  | nil =>
      intro acc h1 h2
      exact ⟨h1, h2⟩
  | cons c cs ih =>
      intro acc h1 h2
      rw [List.foldl_cons]
      have h3 := processCfg_inv uc sf d acc c h1 h2
      exact ih _ h3.1 h3.2

/-- C7, counterexample: a store holding a (hand-written or corrupted)
record with count 1 but no selected stocks is served verbatim on a cache
hit, so the run returns a result violating count = length(selected_stocks);
the claim asserts every returned result satisfies it. -/
theorem C7_cex :
    ((run_selection true false "2024-01-01"
        ⟨[["2024-01-01".data]],
         [(pathFor "2024-01-01" "Foo",
           { selector_name := "Foo", «alias» := "f", trade_date := "2024-01-01",
             selected_stocks := [], scores := none, count := 1 })]⟩
        [{ className := some "Foo" }]).2.all
        (fun r2 => decide (r2.count = (r2.selected_stocks.length : Int)))) = false := by
  decide

/-- C7, witness: the amended theorem applied to a single fresh config over
the empty store (which trivially satisfies the store invariant). -/
theorem C7_witness :
    countInv (freshResult "2024-01-02"
      { className := some "S1", selectOutcome := Except.ok ["600519"] } ["600519"]) := by
  have h := C7_amended false false "2024-01-02" ⟨[], []⟩
    [{ className := some "S1", selectOutcome := Except.ok ["600519"] }]
    (fun q hq => absurd hq (List.not_mem_nil q))
  exact h _ (by decide)

theorem loadFold_spec (d : String) (ns : List String) :
    ∀ st : Store,
      (loadFold d st ns).1.files = st.files
      ∧ (loadFold d st ns).2
          = ns.filterMap (fun n => (readRecord st d n).map (fun r => (n, r))) := by
  induction ns with
  | nil =>
      intro st
      exact ⟨rfl, rfl⟩
  | cons n ns2 ih =>
      intro st
      have hlr : load_result st d n = (mkdirP st (splitSeg d), readRecord st d n) := rfl
      have hfun : (fun n2 => (readRecord (mkdirP st (splitSeg d)) d n2).map
            (fun r => (n2, r)))
          = (fun n2 => (readRecord st d n2).map (fun r => (n2, r))) := rfl
      have ihA := (ih (mkdirP st (splitSeg d))).1
      have ihB := (ih (mkdirP st (splitSeg d))).2
      rw [hfun] at ihB
      rcases hR : readRecord st d n with _ | r
      · have hstep : loadFold d st (n :: ns2)
            = ((loadFold d (mkdirP st (splitSeg d)) ns2).1,
               (loadFold d (mkdirP st (splitSeg d)) ns2).2) := by
          simp only [loadFold]
          rw [hlr, hR]
        constructor
        · rw [hstep]
          exact ihA
        · rw [hstep]
          simp only [List.filterMap_cons, hR, Option.map_none']
          exact ihB
      · have hstep : loadFold d st (n :: ns2)
            = ((loadFold d (mkdirP st (splitSeg d)) ns2).1,
               (n, r) :: (loadFold d (mkdirP st (splitSeg d)) ns2).2) := by
          simp only [loadFold]
          rw [hlr, hR]
        constructor
        · rw [hstep]
          exact ihA
        · rw [hstep]
          simp only [List.filterMap_cons, hR, Option.map_some']
          rw [ihB]

theorem alookup_filterMapLoad (st : Store) (d k : String) (ns : List String) :
    alookup (ns.filterMap (fun n => (readRecord st d n).map (fun r => (n, r)))) k
      = if k ∈ ns then readRecord st d k else none := by
  induction ns with
  | nil => simp [alookup]
  | cons n ns2 ih =>
      rcases hR : readRecord st d n with _ | r
      · rw [List.filterMap_cons]
        simp only [hR, Option.map_none']
        rw [ih]
        by_cases hk : k = n
        · subst hk
          simp [hR]
        · simp [List.mem_cons, hk]
      · rw [List.filterMap_cons]
        simp only [hR, Option.map_some']
        by_cases hk : k = n
        · subst hk
          simp only [alookup, if_pos rfl]
          simp [hR]
        · have hne : ¬ n = k := fun he => hk he.symm
          simp only [alookup, if_neg hne]
          rw [ih]
          simp [List.mem_cons, hk]

theorem alookup_of_mem_nodup {a b : Type} [DecidableEq a] (l : List (a × b)) (k : a) (v : b)
    (hm : (k, v) ∈ l) (hn : (l.map Prod.fst).Nodup) : alookup l k = some v := by
  induction l with
  | nil => simp at hm
  | cons q qs ih =>
      rw [List.map_cons] at hn
      rcases List.mem_cons.mp hm with h1 | h1
      · rw [← h1]
        simp [alookup]
      · have hk : k ∈ qs.map Prod.fst := by
          have : (k, v).1 ∈ qs.map Prod.fst := List.mem_map_of_mem Prod.fst h1
          exact this
        have hq : q.1 ∉ qs.map Prod.fst := (List.nodup_cons.mp hn).1
        have hne : ¬ q.1 = k := fun he => hq (he ▸ hk)
        unfold alookup
        rw [if_neg hne]
        exact ih h1 (List.nodup_cons.mp hn).2

theorem endsWithJson_append (base : Seg) : endsWithJson (base ++ jsonSfx) = true := by
  unfold endsWithJson
  have h1 : (base ++ jsonSfx).length = base.length + 5 := by simp [jsonSfx]
  rw [h1]
  have h2 : base.length + 5 - 5 = base.length := by omega
  rw [h2, List.drop_left]
  simp

theorem stemOf_append (base : Seg) (hb : base ≠ []) : stemOf (base ++ jsonSfx) = base := by
  unfold stemOf
  rw [if_neg ?hne]
  · have h1 : (base ++ jsonSfx).length = base.length + 5 := by simp [jsonSfx]
    rw [h1]
    have h2 : base.length + 5 - 5 = base.length := by omega
    rw [h2, List.take_left]
  case hne =>
    intro he
    have hlen := congrArg List.length he
    simp [jsonSfx] at hlen
    exact hb hlen

theorem globStems_mem (st : Store) (dd : PathT) (base : Seg) (r : StockSelectionResult)
    (hmem : (dd ++ [base ++ jsonSfx], r) ∈ st.files) (hb : base ≠ []) :
    String.mk base ∈ globStems st dd := by
  unfold globStems
  rw [List.mem_filterMap]
  refine ⟨(dd ++ [base ++ jsonSfx], r), hmem, ?_⟩
  have ht : (dd ++ [base ++ jsonSfx]).take dd.length = dd := List.take_left _ _
  have hd2 : (dd ++ [base ++ jsonSfx]).drop dd.length = [base ++ jsonSfx] := List.drop_left _ _
  simp only [ht, hd2, eq_self_iff_true, if_true, endsWithJson_append base,
    stemOf_append base hb]

/-- C5, amended: load_all_results with a given non-empty strategyIds
sequence returns exactly the given identifiers whose address resolves to a
present, readable record — the lookup of any key equals the stored record
when the partition exists and the key was asked for, and is otherwise
absent. A given but empty sequence is treated as not given (Python
truthiness), taking the load-everything branch. With strategyIds not
given, every record present under the date partition with a well-formed
file name (nonempty, separator-free stem followed by ".json", under
duplicate-free storage keys) is returned under its stem. -/
theorem C5_amended (st : Store) (d : String) (n0 : String) (rest : List String) (k : String) :
    load_all_results st d (some []) = load_all_results st d none
    ∧ alookup (load_all_results st d (some (n0 :: rest))).2 k
        = (if dirExistsB st (splitSeg d) = true ∧ k ∈ n0 :: rest
            then readRecord st d k else none)
    ∧ (∀ (base : Seg) (r : StockSelectionResult),
        (splitSeg d ++ [base ++ jsonSfx], r) ∈ st.files → base ≠ [] →
        (∀ c2 ∈ base, c2 ≠ '/') → (st.files.map Prod.fst).Nodup →
        dirExistsB st (splitSeg d) = true →
        (String.mk base, r) ∈ (load_all_results st d none).2) := by
  refine ⟨rfl, ?_, ?_⟩
  · unfold load_all_results
    by_cases hdir : dirExistsB st (splitSeg d) = false
    · rw [if_pos hdir]
      simp [alookup, hdir]
    · rw [if_neg hdir]
      simp only [Bool.not_eq_false] at hdir
      show alookup (loadFold d st (n0 :: rest)).2 k = _
      rw [(loadFold_spec d (n0 :: rest) st).2, alookup_filterMapLoad]
      simp [hdir]
  · intro base r hmem hb hsl hnd hdir
    unfold load_all_results
    rw [if_neg (by simp [hdir])]
    show (String.mk base, r) ∈ (loadFold d st (globStems st (splitSeg d))).2
    rw [(loadFold_spec d _ st).2]
    rw [List.mem_filterMap]
    refine ⟨String.mk base, globStems_mem st (splitSeg d) base r hmem hb, ?_⟩
    have hpath : pathFor d (String.mk base) = splitSeg d ++ [base ++ jsonSfx] := by
      unfold pathFor
      congr 1
      have hdata : (String.mk base).data = base := rfl
      rw [hdata]
      apply listSeg_single
      · simp [jsonSfx]
      · intro he
        have hlen := congrArg List.length he
        simp [jsonSfx] at hlen
      · intro c2 hc2
        rcases List.mem_append.mp hc2 with h | h
        · exact hsl c2 h
        · simp [jsonSfx] at h
          rcases h with h | h | h | h | h <;> simp [h]
    have hrr : readRecord st d (String.mk base) = some r := by
      unfold readRecord
      rw [hpath]
      exact alookup_of_mem_nodup st.files _ r hmem hnd
    simp [hrr]

/-- C5, counterexample: with strategyIds given as the empty sequence, the
code takes the load-everything branch and returns the record stored for
Foo — an identifier outside the given (empty) sequence — contradicting
that no record for an identifier outside the given sequence is ever
returned. -/
theorem C5_cex :
    (load_all_results
        ⟨[["2024-01-01".data]],
         [(pathFor "2024-01-01" "Foo",
           { selector_name := "Foo", «alias» := "f", trade_date := "2024-01-01",
             selected_stocks := [], scores := none, count := 0 })]⟩
        "2024-01-01" (some [])).2
      = [("Foo",
          { selector_name := "Foo", «alias» := "f", trade_date := "2024-01-01",
            selected_stocks := [], scores := none, count := 0 })]
    ∧ ("Foo" : String) ∉ ([] : List String) :=
  ⟨by decide, by decide⟩

/-- C5, witness: the amended theorem's load-everything clause applied to a
concrete store holding one record for Foo: the record is returned under
its stem. -/
theorem C5_witness :
    (String.mk ("Foo".data),
      ({ selector_name := "Foo", «alias» := "f", trade_date := "2024-01-01",
         selected_stocks := [], scores := none, count := 0 } : StockSelectionResult)) ∈
      (load_all_results
        ⟨[["2024-01-01".data]],
         [(splitSeg "2024-01-01" ++ ["Foo".data ++ jsonSfx],
           { selector_name := "Foo", «alias» := "f", trade_date := "2024-01-01",
             selected_stocks := [], scores := none, count := 0 })]⟩
        "2024-01-01" none).2 :=
  (C5_amended
      ⟨[["2024-01-01".data]],
       [(splitSeg "2024-01-01" ++ ["Foo".data ++ jsonSfx],
         { selector_name := "Foo", «alias» := "f", trade_date := "2024-01-01",
           selected_stocks := [], scores := none, count := 0 })]⟩
      "2024-01-01" "x" [] "k").2.2 ("Foo".data) _
    (by decide) (by decide) (by decide) (by decide) (by decide)
